import Mathlib

/-!
Verification development for the dependency-graph core of the
`vscode-file-deps` extension.

The development shallowly embeds the services of the repository:

* `src/services/DependencyIndexer.ts` — the bidirectional dependency index
  (`indexFile`, `removeFileFromIndex`, `indexWorkspace`), the local DFS cycle
  detector (`findCircularDependencies`, `deduplicateCycles`), the global
  Tarjan SCC detector (`findAllCyclesWithTarjan`,
  `getAllCircularDependencies`, `countDependentsForCycle`,
  `calculateCycleSeverity`, `getCyclesBySeverity`);
* `src/services/PathResolver.ts` — alias selection inside `resolve` and
  `resolveWithExtensions`;
* the `ImportParser` service — `isLocalImport` and the filtering step of
  `parseImports`.

Modelling conventions:
* a JS `Map<string, X>` whose key set is never iterated is modelled
  extensionally as a function `String → Option X`; a JS `Map` whose keys are
  iterated (the forward map used by the detectors) is modelled as an
  association list in insertion order;
* a JS `Set<string>` is modelled as a duplicate-free list in insertion order
  (`Set.add` appends when absent, which `setAdd` mirrors);
* JS numbers in the severity computation are modelled as exact rationals
  (the scores involved are small exact decimal fractions);
* file-system access (`fs.existsSync`/`fs.statSync(..).isFile()`) is a
  parameter of the resolver, and the regex scan of `ImportParser` is
  abstracted by handing `parseImports` the list of raw matched specifiers;
* JS string operations are mapped to Lean `String` operations;
  `String.startsWith` is modelled through character lists (`strStartsWith`)
  so that prefix reasoning is available.
-/

namespace FileDeps

/-- JS `Set.add` on a set modelled as a duplicate-free list in insertion
order: append the element if it is not already present. -/
def setAdd (l : List String) (x : String) : List String :=
  if x ∈ l then l else l ++ [x]

theorem mem_setAdd {l : List String} {x v : String} :
    x ∈ setAdd l v ↔ x ∈ l ∨ x = v := by
  unfold setAdd
  split
  · next h => simp only [iff_self_or]; rintro rfl; exact h
  · simp

theorem self_mem_setAdd (l : List String) (v : String) : v ∈ setAdd l v :=
  mem_setAdd.2 (Or.inr rfl)

theorem setAdd_ne_nil (l : List String) (v : String) : setAdd l v ≠ [] := by
  intro h
  exact absurd (h ▸ self_mem_setAdd l v) (List.not_mem_nil v)

theorem setAdd_of_mem {l : List String} {v : String} (h : v ∈ l) :
    setAdd l v = l := by
  unfold setAdd; exact if_pos h

theorem setAdd_of_not_mem {l : List String} {v : String} (h : v ∉ l) :
    setAdd l v = l ++ [v] := by
  unfold setAdd; exact if_neg h

theorem setAdd_idem (l : List String) (v : String) :
    setAdd (setAdd l v) v = setAdd l v :=
  setAdd_of_mem (self_mem_setAdd l v)

theorem setAdd_nodup {l : List String} (h : l.Nodup) (v : String) :
    (setAdd l v).Nodup := by
  unfold setAdd
  split
  · exact h
  · next hv => simpa [List.nodup_append] using ⟨h, hv⟩

theorem foldl_setAdd_mem :
    ∀ (r acc : List String) (x : String),
      x ∈ r.foldl setAdd acc ↔ x ∈ acc ∨ x ∈ r
  | [], acc, x => by simp
  | i :: rest, acc, x => by
    rw [List.foldl_cons, foldl_setAdd_mem rest (setAdd acc i) x, mem_setAdd]
    simp only [List.mem_cons]
    tauto

theorem foldl_setAdd_nodup :
    ∀ (r acc : List String), acc.Nodup → (r.foldl setAdd acc).Nodup
  | [], _, h => h
  | i :: rest, acc, h =>
    foldl_setAdd_nodup rest (setAdd acc i) (setAdd_nodup h i)

/-- A JS `Map<string, Set<string>>` whose keys are only looked up (never
iterated), modelled extensionally; `none` means the key is absent. -/
abbrev EdgeMap := String → Option (List String)

/-- Effect on one map entry of `reverseSet.delete(filePath)` followed by the
empty-set pruning in `removeFileFromIndex` (DependencyIndexer.ts 101-107):
if the entry is present, erase the value, and drop the entry when the set
becomes empty. -/
def delOne : Option (List String) → String → Option (List String)
  | none, _ => none
  | some l, v => if l.erase v = [] then none else some (l.erase v)

theorem delOne_none (v : String) : delOne none v = none := rfl

theorem delOne_some (l : List String) (v : String) :
    delOne (some l) v = if l.erase v = [] then none else some (l.erase v) :=
  rfl

/-- Effect on one map entry of the reverse-index insertion in `indexFile`
(DependencyIndexer.ts 78-82): create the entry when absent, then `Set.add`. -/
def addOne (o : Option (List String)) (v : String) : Option (List String) :=
  some (setAdd (o.getD []) v)

/-- One loop iteration of `removeFileFromIndex` on the reverse map. -/
def revDel (m : EdgeMap) (k v : String) : EdgeMap :=
  Function.update m k (delOne (m k) v)

/-- One loop iteration of the reverse-index insertion in `indexFile`. -/
def revAdd (m : EdgeMap) (k v : String) : EdgeMap :=
  Function.update m k (addOne (m k) v)

/-- The private `index` of `DependencyIndexer`: forward (imports) and
reverse (imported by) maps. -/
@[ext]
structure DependencyIndex where
  forward : EdgeMap
  reverse : EdgeMap

/-- `removeFileFromIndex` (DependencyIndexer.ts 96-111): drop every edge
owned by `filePath` from the reverse map (pruning emptied entries), then
delete the forward entry. -/
def removeFileFromIndex (s : DependencyIndex) (filePath : String) :
    DependencyIndex :=
  { forward := Function.update s.forward filePath none
    reverse :=
      match s.forward filePath with
      | none => s.reverse
      | some oldImports =>
        oldImports.foldl (fun r imp => revDel r imp filePath) s.reverse }

/-- `indexFile` (DependencyIndexer.ts 63-91), parametrised by the list of
resolved import paths produced for this file by the parser and resolver
(successfully resolved, in extraction order, duplicates possible before the
`Set` collapses them): clear the old entries, add each resolved import to
the reverse map, and store the resolved set in the forward map. -/
def indexFile (s : DependencyIndex) (filePath : String)
    (resolved : List String) : DependencyIndex :=
  let s1 := removeFileFromIndex s filePath
  { forward :=
      Function.update s1.forward filePath (some (resolved.foldl setAdd []))
    reverse := resolved.foldl (fun r imp => revAdd r imp filePath) s1.reverse }

/-- The empty index (constructor state of `DependencyIndexer`). -/
def emptyIndex : DependencyIndex := ⟨fun _ => none, fun _ => none⟩

/-- `indexWorkspace` (DependencyIndexer.ts 29-58): clear the whole index,
then index every candidate file (each given with its resolved imports). -/
def indexWorkspace (files : List (String × List String)) : DependencyIndex :=
  files.foldl (fun st pf => indexFile st pf.1 pf.2) emptyIndex

/-- One mutating call on the index: `indexFile` or `indexWorkspace`. -/
inductive IndexOp where
  | file (filePath : String) (resolved : List String)
  | workspace (files : List (String × List String))

def applyOp (s : DependencyIndex) : IndexOp → DependencyIndex
  | .file p r => indexFile s p r
  | .workspace files => indexWorkspace files

/-- The index after a finite sequence of calls starting from the empty
index. -/
def runOps (ops : List IndexOp) : DependencyIndex :=
  ops.foldl applyOp emptyIndex

/-- Membership of `v` in the edge set stored under key `k` (an absent key
holds no edges). -/
def edgeMem (m : EdgeMap) (k v : String) : Prop :=
  v ∈ (m k).getD []

instance (m : EdgeMap) (k v : String) : Decidable (edgeMem m k v) := by
  unfold edgeMem; infer_instance

/-- The forward/reverse consistency invariant of the index:
`b ∈ forward[a]` iff `a ∈ reverse[b]`. -/
def consistent (s : DependencyIndex) : Prop :=
  ∀ a b, edgeMem s.forward a b ↔ edgeMem s.reverse b a

/-- No reverse entry is left holding an empty set. -/
def prunedRev (s : DependencyIndex) : Prop :=
  ∀ b, s.reverse b ≠ some []

/-- Internal well-formedness: consistency, pruning, and duplicate-freeness
of every stored edge list (JS `Set`s cannot hold duplicates). -/
def wellFormed (s : DependencyIndex) : Prop :=
  consistent s ∧ prunedRev s ∧
    (∀ b l, s.reverse b = some l → l.Nodup) ∧
    (∀ a l, s.forward a = some l → l.Nodup)

theorem wellFormed_emptyIndex : wellFormed emptyIndex := by
  refine ⟨fun a b => ?_, fun b => ?_, fun b l h => ?_, fun a l h => ?_⟩
  · simp [edgeMem, emptyIndex]
  · simp [emptyIndex]
  · exact absurd h (by simp [emptyIndex])
  · exact absurd h (by simp [emptyIndex])

theorem foldl_revDel_apply (p : String) :
    ∀ (old : List String) (m : EdgeMap) (b : String), old.Nodup →
      (old.foldl (fun r imp => revDel r imp p) m) b =
        if b ∈ old then delOne (m b) p else m b
  | [], m, b, _ => by simp
  | i :: rest, m, b, h => by
    obtain ⟨hi, hrest⟩ := List.nodup_cons.1 h
    rw [List.foldl_cons, foldl_revDel_apply p rest (revDel m i p) b hrest]
    by_cases hbr : b ∈ rest
    · have hbi : b ≠ i := fun hbe => hi (hbe ▸ hbr)
      simp [hbr, hbi, revDel, Function.update_apply, List.mem_cons]
    · by_cases hbi : b = i
      · subst hbi
        simp [hbr, revDel, Function.update_apply]
      · simp [hbr, hbi, revDel, Function.update_apply, List.mem_cons]

theorem addOne_idem (o : Option (List String)) (p : String) :
    addOne (addOne o p) p = addOne o p := by
  simp [addOne, setAdd_idem]

theorem foldl_revAdd_apply (p : String) :
    ∀ (r : List String) (m : EdgeMap) (b : String),
      (r.foldl (fun mm imp => revAdd mm imp p) m) b =
        if b ∈ r then addOne (m b) p else m b
  | [], m, b => by simp
  | i :: rest, m, b => by
    rw [List.foldl_cons, foldl_revAdd_apply p rest (revAdd m i p) b]
    by_cases hbr : b ∈ rest
    · by_cases hbi : b = i
      · subst hbi
        simp [hbr, revAdd, Function.update_apply, addOne_idem]
      · simp [hbr, hbi, revAdd, Function.update_apply, List.mem_cons]
    · by_cases hbi : b = i
      · subst hbi
        simp [hbr, revAdd, Function.update_apply]
      · simp [hbr, hbi, revAdd, Function.update_apply, List.mem_cons]

/-- Pointwise description of the reverse map right after
`removeFileFromIndex s p`. -/
def rmApply (s : DependencyIndex) (p b : String) : Option (List String) :=
  match s.forward p with
  | none => s.reverse b
  | some old => if b ∈ old then delOne (s.reverse b) p else s.reverse b

theorem removeFile_reverse_apply (s : DependencyIndex) (p b : String)
    (hfn : ∀ a l, s.forward a = some l → l.Nodup) :
    (removeFileFromIndex s p).reverse b = rmApply s p b := by
  unfold removeFileFromIndex rmApply
  rcases heq : s.forward p with _ | old
  · rfl
  · exact foldl_revDel_apply p old s.reverse b (hfn p old heq)

theorem rmApply_of_forward_none {s : DependencyIndex} {p : String}
    (h : s.forward p = none) (b : String) : rmApply s p b = s.reverse b := by
  unfold rmApply
  rw [h]

theorem rmApply_of_forward_some {s : DependencyIndex} {p : String}
    {old : List String} (h : s.forward p = some old) (b : String) :
    rmApply s p b =
      if b ∈ old then delOne (s.reverse b) p else s.reverse b := by
  unfold rmApply
  rw [h]

theorem indexFile_forward_apply (s : DependencyIndex) (p : String)
    (r : List String) (a : String) :
    (indexFile s p r).forward a =
      if a = p then some (r.foldl setAdd []) else s.forward a := by
  unfold indexFile removeFileFromIndex
  simp only [Function.update_apply]
  by_cases h : a = p <;> simp [h]

theorem indexFile_reverse_apply (s : DependencyIndex) (p : String)
    (r : List String) (b : String)
    (hfn : ∀ a l, s.forward a = some l → l.Nodup) :
    (indexFile s p r).reverse b =
      if b ∈ r then addOne (rmApply s p b) p else rmApply s p b := by
  show (r.foldl (fun mm imp => revAdd mm imp p)
    (removeFileFromIndex s p).reverse) b = _
  rw [foldl_revAdd_apply p r (removeFileFromIndex s p).reverse b,
    removeFile_reverse_apply s p b hfn]

theorem mem_delOne_of_ne {o : Option (List String)} {a p : String}
    (hap : a ≠ p) : a ∈ (delOne o p).getD [] ↔ a ∈ o.getD [] := by
  rcases o with _ | l
  · rfl
  · have hme : a ∈ l.erase p ↔ a ∈ l := List.mem_erase_of_ne hap
    rw [delOne_some]
    by_cases he : l.erase p = []
    · rw [if_pos he]
      simp only [Option.getD_none, Option.getD_some, List.not_mem_nil,
        false_iff]
      intro hal
      have h2 := hme.2 hal
      rw [he] at h2
      exact List.not_mem_nil a h2
    · rw [if_neg he]
      simpa using hme

theorem mem_addOne_of_ne {o : Option (List String)} {a p : String}
    (hap : a ≠ p) : a ∈ (addOne o p).getD [] ↔ a ∈ o.getD [] := by
  simp [addOne, mem_setAdd, hap]

theorem mem_rmApply_of_ne {s : DependencyIndex} {p b a : String}
    (hap : a ≠ p) :
    a ∈ (rmApply s p b).getD [] ↔ a ∈ (s.reverse b).getD [] := by
  rcases heq : s.forward p with _ | old
  · rw [rmApply_of_forward_none heq]
  · rw [rmApply_of_forward_some heq]
    by_cases hbo : b ∈ old
    · rw [if_pos hbo]
      exact mem_delOne_of_ne hap
    · rw [if_neg hbo]

theorem not_mem_rmApply_self {s : DependencyIndex} {p b : String}
    (hw : wellFormed s) : p ∉ (rmApply s p b).getD [] := by
  obtain ⟨hc, _, hrn, _⟩ := hw
  rcases heq : s.forward p with _ | old
  · rw [rmApply_of_forward_none heq]
    intro hmem
    have h2 : edgeMem s.forward p b := (hc p b).2 hmem
    unfold edgeMem at h2
    rw [heq] at h2
    exact List.not_mem_nil b h2
  · rw [rmApply_of_forward_some heq]
    by_cases hbo : b ∈ old
    · rw [if_pos hbo]
      rcases hre : s.reverse b with _ | l
      · simp [delOne]
      · rw [delOne_some]
        by_cases he : l.erase p = []
        · rw [if_pos he]
          simp
        · rw [if_neg he]
          simpa using (hrn b l hre).not_mem_erase
    · rw [if_neg hbo]
      intro hmem
      have h2 : edgeMem s.forward p b := (hc p b).2 hmem
      unfold edgeMem at h2
      rw [heq] at h2
      exact hbo h2

theorem rmApply_nodup {s : DependencyIndex} {p b : String}
    (hrn : ∀ c l, s.reverse c = some l → l.Nodup) :
    ∀ l, rmApply s p b = some l → l.Nodup := by
  rcases heq : s.forward p with _ | old
  · rw [rmApply_of_forward_none heq]
    exact hrn b
  · rw [rmApply_of_forward_some heq]
    by_cases hbo : b ∈ old
    · rw [if_pos hbo]
      rcases hre : s.reverse b with _ | l0
      · simp [delOne]
      · rw [delOne_some]
        by_cases he : l0.erase p = []
        · rw [if_pos he]
          simp
        · rw [if_neg he]
          rintro l hl
          simp only [Option.some.injEq] at hl
          exact hl ▸ (hrn b l0 hre).erase p
    · rw [if_neg hbo]
      exact hrn b

theorem rmApply_ne_nil {s : DependencyIndex} {p b : String}
    (hp : prunedRev s) : rmApply s p b ≠ some [] := by
  rcases heq : s.forward p with _ | old
  · rw [rmApply_of_forward_none heq]
    exact hp b
  · rw [rmApply_of_forward_some heq]
    by_cases hbo : b ∈ old
    · rw [if_pos hbo]
      rcases s.reverse b with _ | l0
      · simp [delOne]
      · rw [delOne_some]
        by_cases he : l0.erase p = []
        · rw [if_pos he]
          simp
        · rw [if_neg he]
          simpa using he
    · rw [if_neg hbo]
      exact hp b

/-- `indexFile` preserves well-formedness of the index. -/
theorem wellFormed_indexFile {s : DependencyIndex} (hw : wellFormed s)
    (p : String) (r : List String) : wellFormed (indexFile s p r) := by
  obtain ⟨hc, hp, hrn, hfn⟩ := hw
  have hfwd : ∀ a, (indexFile s p r).forward a =
      if a = p then some (r.foldl setAdd []) else s.forward a :=
    fun a => indexFile_forward_apply s p r a
  have hrev : ∀ b, (indexFile s p r).reverse b =
      if b ∈ r then addOne (rmApply s p b) p else rmApply s p b :=
    fun b => indexFile_reverse_apply s p r b hfn
  refine ⟨fun a b => ?_, fun b => ?_, fun b l h => ?_, fun a l h => ?_⟩
  · -- consistency
    unfold edgeMem
    rw [hfwd a, hrev b]
    by_cases hap : a = p
    · subst hap
      rw [if_pos rfl]
      simp only [Option.getD_some, foldl_setAdd_mem, List.not_mem_nil,
        false_or]
      by_cases hbr : b ∈ r
      · rw [if_pos hbr]
        simp only [hbr, true_iff, addOne, Option.getD_some]
        exact self_mem_setAdd _ a
      · rw [if_neg hbr]
        simp only [hbr, false_iff]
        exact not_mem_rmApply_self ⟨hc, hp, hrn, hfn⟩
    · rw [if_neg hap]
      have hbase : a ∈ (rmApply s p b).getD [] ↔ a ∈ (s.reverse b).getD [] :=
        mem_rmApply_of_ne hap
      by_cases hbr : b ∈ r
      · rw [if_pos hbr, mem_addOne_of_ne hap, hbase]
        exact hc a b
      · rw [if_neg hbr, hbase]
        exact hc a b
  · -- pruning
    rw [hrev b]
    by_cases hbr : b ∈ r
    · rw [if_pos hbr]
      simp only [addOne, Option.some.injEq, ne_eq]
      exact fun h => setAdd_ne_nil _ _ h
    · rw [if_neg hbr]
      exact rmApply_ne_nil hp
  · -- reverse nodup
    rw [hrev b] at h
    by_cases hbr : b ∈ r
    · rw [if_pos hbr] at h
      simp only [addOne, Option.some.injEq] at h
      subst h
      refine setAdd_nodup ?_ p
      rcases hra : rmApply s p b with _ | l0
      · simp
      · simpa [hra] using rmApply_nodup hrn l0 hra
    · rw [if_neg hbr] at h
      exact rmApply_nodup hrn l h
  · -- forward nodup
    rw [hfwd a] at h
    by_cases hap : a = p
    · rw [if_pos hap] at h
      simp only [Option.some.injEq] at h
      exact h ▸ foldl_setAdd_nodup r [] List.nodup_nil
    · rw [if_neg hap] at h
      exact hfn a l h

theorem wellFormed_indexWorkspace (files : List (String × List String)) :
    wellFormed (indexWorkspace files) := by
  unfold indexWorkspace
  have : ∀ (fs : List (String × List String)) (s : DependencyIndex),
      wellFormed s → wellFormed (fs.foldl (fun st pf => indexFile st pf.1 pf.2) s) := by
    intro fs
    induction fs with
    | nil => exact fun s hs => hs
    | cons f rest ih =>
      intro s hs
      exact ih _ (wellFormed_indexFile hs f.1 f.2)
  exact this files emptyIndex wellFormed_emptyIndex

theorem wellFormed_applyOp {s : DependencyIndex} (hw : wellFormed s)
    (op : IndexOp) : wellFormed (applyOp s op) := by
  cases op with
  | file p r => exact wellFormed_indexFile hw p r
  | workspace files => exact wellFormed_indexWorkspace files

theorem wellFormed_runOps (ops : List IndexOp) : wellFormed (runOps ops) := by
  unfold runOps
  have : ∀ (l : List IndexOp) (s : DependencyIndex),
      wellFormed s → wellFormed (l.foldl applyOp s) := by
    intro l
    induction l with
    | nil => exact fun s hs => hs
    | cons op rest ih => exact fun s hs => ih _ (wellFormed_applyOp hs op)
  exact this ops emptyIndex wellFormed_emptyIndex

/-- C1: after any finite sequence of `indexFile`/`indexWorkspace` calls from
the empty index, `b ∈ forward(a) ⇔ a ∈ reverse(b)` for all files `a`, `b`;
no reverse entry is ever left as an empty set; and re-indexing a file with an
empty resolved-import list leaves it with no forward edges and removes it
from every reverse entry. -/
theorem indexer_forward_reverse_invariant (ops : List IndexOp) :
    (∀ a b, edgeMem (runOps ops).forward a b ↔ edgeMem (runOps ops).reverse b a)
    ∧ (∀ b, (runOps ops).reverse b ≠ some [])
    ∧ ∀ p b, ¬ edgeMem (indexFile (runOps ops) p []).forward p b
        ∧ ¬ edgeMem (indexFile (runOps ops) p []).reverse b p := by
  have hw := wellFormed_runOps ops
  obtain ⟨hc, hp, hrn, hfn⟩ := hw
  refine ⟨hc, hp, fun p b => ⟨?_, ?_⟩⟩
  · unfold edgeMem
    rw [indexFile_forward_apply _ p [] p, if_pos rfl]
    simp
  · unfold edgeMem
    rw [indexFile_reverse_apply _ p [] b hfn]
    simp only [List.not_mem_nil, if_false]
    exact not_mem_rmApply_self ⟨hc, hp, hrn, hfn⟩

/-- C2: on a well-formed index (every index reachable through the API is
well-formed, by `wellFormed_runOps`), calling `indexFile` twice in a row
with the same resolved imports produces exactly the same index as calling it
once. -/
theorem indexFile_idempotent (s : DependencyIndex) (p : String)
    (r : List String) (hw : wellFormed s) :
    indexFile (indexFile s p r) p r = indexFile s p r := by
  have hwt := wellFormed_indexFile hw p r
  obtain ⟨hc, hp, hrn, hfn⟩ := hw
  obtain ⟨htc, htp, htrn, htfn⟩ := hwt
  ext1
  · -- forward maps
    show (indexFile (indexFile s p r) p r).forward = (indexFile s p r).forward
    unfold indexFile removeFileFromIndex
    simp only [Function.update_idem]
  · -- reverse maps
    funext b
    rw [indexFile_reverse_apply (indexFile s p r) p r b htfn]
    have htf : (indexFile s p r).forward p = some (r.foldl setAdd []) := by
      rw [indexFile_forward_apply, if_pos rfl]
    have hmem : ∀ x, x ∈ r.foldl setAdd [] ↔ x ∈ r := by
      intro x
      rw [foldl_setAdd_mem]
      simp
    have hrm : rmApply (indexFile s p r) p b =
        if b ∈ r then delOne ((indexFile s p r).reverse b) p
        else (indexFile s p r).reverse b := by
      rw [rmApply_of_forward_some htf]
      by_cases hbr : b ∈ r
      · rw [if_pos ((hmem b).2 hbr), if_pos hbr]
      · rw [if_neg (fun h => hbr ((hmem b).1 h)), if_neg hbr]
    by_cases hbr : b ∈ r
    · have hrev : (indexFile s p r).reverse b =
          addOne (rmApply s p b) p := by
        rw [indexFile_reverse_apply s p r b hfn, if_pos hbr]
      have hpnb : p ∉ (rmApply s p b).getD [] :=
        not_mem_rmApply_self ⟨hc, hp, hrn, hfn⟩
      have haddv : addOne (rmApply s p b) p =
          some ((rmApply s p b).getD [] ++ [p]) := by
        rw [addOne, setAdd_of_not_mem hpnb]
      have herase : ((rmApply s p b).getD [] ++ [p]).erase p =
          (rmApply s p b).getD [] := by
        rw [List.erase_append_right _ hpnb, List.erase_cons_head,
          List.append_nil]
      rw [if_pos hbr, hrm, if_pos hbr, hrev, haddv, delOne_some, herase]
      by_cases hbn : (rmApply s p b).getD [] = []
      · rw [if_pos hbn, hbn]
        simp [addOne, setAdd]
      · rw [if_neg hbn, addOne, Option.getD_some, setAdd_of_not_mem hpnb]
    · rw [if_neg hbr, hrm, if_neg hbr]

/-- Witness for C2 at a concrete well-formed index. -/
theorem indexFile_idempotent_witness :
    indexFile (indexFile emptyIndex "a" ["b"]) "a" ["b"] =
      indexFile emptyIndex "a" ["b"] :=
  indexFile_idempotent emptyIndex "a" ["b"] wellFormed_emptyIndex

/-! ### Reference extraction: `ImportParser` -/

/-- JS `String.prototype.startsWith`, modelled on the character lists
underlying Lean strings. -/
def strStartsWith (s pre : String) : Bool :=
  pre.data.isPrefixOf s.data

theorem strStartsWith_iff {s pre : String} :
    strStartsWith s pre = true ↔ pre.data <+: s.data := by
  rw [strStartsWith, List.isPrefixOf_iff_prefix]

theorem strStartsWith_refl (s : String) : strStartsWith s s = true :=
  strStartsWith_iff.2 (List.prefix_refl s.data)

theorem strStartsWith_self_of_eq {s a : String} (h : s = a) :
    strStartsWith s a = true :=
  h ▸ strStartsWith_refl s

theorem strStartsWith_of_append {s a t : String}
    (h : strStartsWith s (a ++ t) = true) : strStartsWith s a = true := by
  rw [strStartsWith_iff] at h ⊢
  rw [String.data_append] at h
  exact (List.prefix_append a.data t.data).trans h

/-- `ImportParser.isLocalImport` (ImportParser, lines 55-87): relative
specifiers, alias-pattern specifiers, and the `@`-without-second-segment
heuristic (`afterAt.indexOf("/") === -1`). -/
def isLocalImport (aliasPatterns : List String) (importPath : String) :
    Bool :=
  if strStartsWith importPath "./" || strStartsWith importPath "../" then
    true
  else if aliasPatterns.any (fun pat =>
      strStartsWith importPath pat || importPath == pat ||
        strStartsWith importPath (pat ++ "/")) then
    true
  else if strStartsWith importPath "@" then
    if (importPath.data.drop 1).contains ('/') then false else true
  else
    false

/-- Filtering step of `ImportParser.parseImports` (lines 32-49): the regex
scan is abstracted by the list of raw matched specifiers in match order;
specifiers classified local are collected into a `Set`. -/
def parseImports (aliasPatterns : List String)
    (specifiers : List String) : List String :=
  specifiers.foldl
    (fun acc t =>
      if isLocalImport aliasPatterns t then setAdd acc t else acc)
    []

theorem isLocalImport_iff (aliasPatterns : List String) (p : String) :
    isLocalImport aliasPatterns p = true ↔
      (strStartsWith p "./" = true ∨ strStartsWith p "../" = true
        ∨ (∃ a ∈ aliasPatterns, strStartsWith p a = true)
        ∨ (strStartsWith p "@" = true
            ∧ (p.data.drop 1).contains ('/') = false)) := by
  unfold isLocalImport
  have halias : (aliasPatterns.any (fun pat =>
      strStartsWith p pat || p == pat ||
        strStartsWith p (pat ++ "/"))) = true ↔
      ∃ a ∈ aliasPatterns, strStartsWith p a = true := by
    rw [List.any_eq_true]
    constructor
    · rintro ⟨a, ha, hcond⟩
      refine ⟨a, ha, ?_⟩
      simp only [Bool.or_eq_true] at hcond
      rcases hcond with (h | h) | h
      · exact h
      · exact strStartsWith_self_of_eq (by simpa using h)
      · exact strStartsWith_of_append h
    · rintro ⟨a, ha, h⟩
      exact ⟨a, by simp [ha, h]⟩
  by_cases h1 : strStartsWith p "./" = true
  · simp [h1]
  by_cases h2 : strStartsWith p "../" = true
  · simp [h1, h2]
  rw [if_neg (by simp [h1, h2])]
  by_cases h3 : ∃ a ∈ aliasPatterns, strStartsWith p a = true
  · rw [if_pos (halias.2 h3)]
    simp [h1, h2, h3]
  · rw [if_neg (fun hc => h3 (halias.1 hc))]
    by_cases h4 : strStartsWith p "@" = true
    · rw [if_pos h4]
      by_cases h5 : (p.data.drop 1).contains ('/') = true
      · rw [if_pos h5]
        have h5m : ('/') ∈ p.data.tail := by simpa using h5
        simp [h1, h2, h3, h4, h5m]
      · rw [if_neg h5]
        simp only [Bool.not_eq_true] at h5
        have h5m : ('/') ∉ p.data.tail := by simpa using h5
        simp [h1, h2, h3, h4, h5m]
    · rw [if_neg h4]
      simp only [Bool.not_eq_true] at h4
      simp [h1, h2, h3, h4]

theorem not_mem_parseImports {aliasPatterns : List String} {s : String}
    (h : isLocalImport aliasPatterns s = false)
    (specifiers : List String) :
    s ∉ parseImports aliasPatterns specifiers := by
  unfold parseImports
  have key : ∀ (l acc : List String), s ∉ acc →
      s ∉ l.foldl (fun acc t =>
        if isLocalImport aliasPatterns t then setAdd acc t else acc) acc := by
    intro l
    induction l with
    | nil => exact fun acc hacc => hacc
    | cons t rest ih =>
      intro acc hacc
      rw [List.foldl_cons]
      apply ih
      by_cases ht : isLocalImport aliasPatterns t = true
      · rw [if_pos ht]
        intro hmem
        rcases mem_setAdd.1 hmem with hm | hm
        · exact hacc hm
        · subst hm
          simp [h] at ht
      · rw [if_neg ht]
        exact hacc
  exact key specifiers [] (List.not_mem_nil s)

/-- C7: a specifier is classified local iff it is relative (`./`, `../`),
or starts with a registered alias pattern, or starts with `@` with no
second `/`-separated segment (the heuristic for bare aliases absent a
matching alias); hence `lodash` is never extracted when no alias pattern
prefixes it, `@scope/pkg/sub` is excluded when no alias pattern prefixes
it, and `@components` is included as soon as it is a registered pattern. -/
theorem importClassification (aliasPatterns : List String) (p : String) :
    (isLocalImport aliasPatterns p = true ↔
      (strStartsWith p "./" = true ∨ strStartsWith p "../" = true
        ∨ (∃ a ∈ aliasPatterns, strStartsWith p a = true)
        ∨ (strStartsWith p "@" = true
            ∧ (p.data.drop 1).contains ('/') = false)))
    ∧ ((∀ a ∈ aliasPatterns, strStartsWith "lodash" a = false) →
        isLocalImport aliasPatterns "lodash" = false
        ∧ ∀ specifiers, "lodash" ∉ parseImports aliasPatterns specifiers)
    ∧ ((∀ a ∈ aliasPatterns, strStartsWith "@scope/pkg/sub" a = false) →
        isLocalImport aliasPatterns "@scope/pkg/sub" = false)
    ∧ ("@components" ∈ aliasPatterns →
        isLocalImport aliasPatterns "@components" = true) := by
  refine ⟨isLocalImport_iff aliasPatterns p, ?_, ?_, ?_⟩
  · intro hnone
    have hfalse : isLocalImport aliasPatterns "lodash" = false := by
      have hne : ¬ isLocalImport aliasPatterns "lodash" = true := by
        rw [isLocalImport_iff]
        push_neg
        refine ⟨by decide, by decide, ?_, ?_⟩
        · intro a ha
          simp [hnone a ha]
        · intro h4
          exact absurd h4 (by decide)
      simpa using hne
    exact ⟨hfalse, fun specifiers => not_mem_parseImports hfalse specifiers⟩
  · intro hnone
    have hne : ¬ isLocalImport aliasPatterns "@scope/pkg/sub" = true := by
      rw [isLocalImport_iff]
      push_neg
      refine ⟨by decide, by decide, ?_, ?_⟩
      · intro a ha
        simp [hnone a ha]
      · intro h4
        decide
    simpa using hne
  · intro hmem
    rw [isLocalImport_iff]
    exact Or.inr (Or.inr (Or.inl ⟨"@components", hmem,
      strStartsWith_refl "@components"⟩))

/-- Witness for C7 with concrete alias patterns and specifiers. -/
theorem importClassification_witness :
    isLocalImport ["@/", "@components"] "lodash" = false
    ∧ "lodash" ∉ parseImports ["@/", "@components"]
        ["./a", "lodash", "@components"]
    ∧ isLocalImport ["@/", "@components"] "@scope/pkg/sub" = false
    ∧ isLocalImport ["@/", "@components"] "@components" = true := by
  have h := importClassification ["@/", "@components"] "lodash"
  have h1 := h.2.1 (by decide)
  have h2 := h.2.2.1 (by decide)
  have h3 := h.2.2.2 (by decide)
  exact ⟨h1.1, h1.2 ["./a", "lodash", "@components"], h2, h3⟩

/-! ### Path resolution: `PathResolver` -/

/-- One iteration of the alias-selection loop of `PathResolver.resolve`
(PathResolver.ts 230-239): a matching alias
(`importPath === alias || importPath.startsWith(alias)`) replaces the best
candidate when its prefix is strictly longer. -/
def selectAliasStep (importPath : String) (best al : String × String) :
    String × String :=
  if (importPath = al.1 ∨ strStartsWith importPath al.1 = true)
      ∧ best.1.length < al.1.length then al else best

/-- The alias-selection loop of `PathResolver.resolve`, started from the
empty `bestMatch`/`bestTarget`. -/
def selectAlias (aliases : List (String × String)) (importPath : String) :
    String × String :=
  aliases.foldl (selectAliasStep importPath) ("", "")

/-- Non-relative branch of `PathResolver.resolve` (PathResolver.ts 226-252):
with a non-empty best match, substitute the matched prefix by its target
(`importPath.replace(bestMatch, bestTarget)`, where the match is a prefix of
the specifier, so the replacement is target ++ remainder); otherwise
resolution fails with `null`. -/
def resolveAliasBase (aliases : List (String × String))
    (importPath : String) : Option String :=
  if (selectAlias aliases importPath).1 = "" then none
  else some ((selectAlias aliases importPath).2
    ++ importPath.drop (selectAlias aliases importPath).1.length)

/-- Modelled from the spec: one step of scanning the alias table for every
prefix the specifier equals or starts with, keeping the longest prefix and
letting the first-registered alias win ties. -/
def specSelectStep (importPath : String) (best : Option (String × String))
    (al : String × String) : Option (String × String) :=
  if strStartsWith importPath al.1 = true then
    match best with
    | none => some al
    | some b => if b.1.length < al.1.length then some al else best
  else best

/-- Modelled from the spec: the longest-prefix, first-registered-on-ties
alias selection. -/
def specSelectAlias (aliases : List (String × String))
    (importPath : String) : Option (String × String) :=
  aliases.foldl (specSelectStep importPath) none

theorem string_length_pos_of_ne {s : String} (h : s ≠ "") :
    0 < s.length := by
  rcases Nat.eq_zero_or_pos s.length with hz | hp
  · exfalso
    apply h
    have hdata : s.data.length = 0 := hz
    have : s.data = [] := List.length_eq_zero.1 hdata
    cases s
    simp_all
  · exact hp

theorem selectAlias_loop_spec (importPath : String) :
    ∀ (l : List (String × String)) (bc : String × String)
      (bs : Option (String × String)),
      (∀ al ∈ l, al.1 ≠ "") →
      ((bc.1 = "" ∧ bs = none) ∨ (bc.1 ≠ "" ∧ bs = some bc)) →
      ((l.foldl (selectAliasStep importPath) bc).1 = ""
          ∧ l.foldl (specSelectStep importPath) bs = none)
        ∨ ((l.foldl (selectAliasStep importPath) bc).1 ≠ ""
          ∧ l.foldl (specSelectStep importPath) bs
              = some (l.foldl (selectAliasStep importPath) bc))
  | [], bc, bs, _, hinv => hinv
  | al :: rest, bc, bs, hne, hinv => by
    rw [List.foldl_cons, List.foldl_cons]
    have hal : al.1 ≠ "" := hne al (List.mem_cons_self al rest)
    have hrest : ∀ a ∈ rest, a.1 ≠ "" :=
      fun a ha => hne a (List.mem_cons_of_mem al ha)
    apply selectAlias_loop_spec importPath rest _ _ hrest
    by_cases hmatch : strStartsWith importPath al.1 = true
    · have hcm : importPath = al.1 ∨ strStartsWith importPath al.1 = true :=
        Or.inr hmatch
      rcases hinv with ⟨hbc, hbs⟩ | ⟨hbc, hbs⟩
      · -- nothing selected yet: both take `al`
        right
        subst hbs
        have hlen : bc.1.length < al.1.length := by
          rw [hbc]
          exact string_length_pos_of_ne hal
        unfold selectAliasStep specSelectStep
        rw [if_pos ⟨hcm, hlen⟩, if_pos hmatch]
        exact ⟨hal, rfl⟩
      · -- both hold the same candidate: same comparison, same outcome
        right
        subst hbs
        unfold selectAliasStep specSelectStep
        rw [if_pos hmatch]
        by_cases hlen : bc.1.length < al.1.length
        · rw [if_pos ⟨hcm, hlen⟩]
          refine ⟨hal, ?_⟩
          show (if bc.1.length < al.1.length then some al else some bc)
            = some al
          rw [if_pos hlen]
        · rw [if_neg (fun hand => hlen hand.2)]
          refine ⟨hbc, ?_⟩
          show (if bc.1.length < al.1.length then some al else some bc)
            = some bc
          rw [if_neg hlen]
    · -- no match: both keep their candidate
      have hcm : ¬ ((importPath = al.1 ∨ strStartsWith importPath al.1 = true)
          ∧ bc.1.length < al.1.length) := by
        rintro ⟨hm | hm, _⟩
        · exact hmatch (strStartsWith_self_of_eq hm)
        · exact hmatch hm
      unfold selectAliasStep specSelectStep
      rw [if_neg hcm, if_neg hmatch]
      exact hinv

/-- C3 (amended): aliases with an empty prefix string are never selected;
apart from that, `resolve` substitutes, among the registered aliases whose
prefix the specifier equals or starts with, the one with the longest prefix
string, the first-registered winning ties — in particular
`@/components/Button` resolves through `@/components`, not `@/`. -/
theorem resolve_longest_alias (aliases : List (String × String))
    (importPath : String) (hne : ∀ al ∈ aliases, al.1 ≠ "") :
    resolveAliasBase aliases importPath
      = (specSelectAlias aliases importPath).map
          (fun al => al.2 ++ importPath.drop al.1.length)
    ∧ specSelectAlias
        [("@/", "/root/src/"), ("@/components", "/root/src/ui/")]
        "@/components/Button" = some ("@/components", "/root/src/ui/")
    ∧ resolveAliasBase
        [("@/", "/root/src/"), ("@/components", "/root/src/ui/")]
        "@/components/Button" = some ("/root/src/ui/" ++ "/Button") := by
  refine ⟨?_, by decide, by decide⟩
  have h := selectAlias_loop_spec importPath aliases ("", "") none hne
    (Or.inl ⟨rfl, rfl⟩)
  unfold resolveAliasBase selectAlias specSelectAlias
  rcases h with ⟨hbc, hbs⟩ | ⟨hbc, hbs⟩
  · rw [if_pos hbc, hbs]
    rfl
  · rw [if_neg hbc, hbs]
    rfl

/-- Witness for C3 (amended) at the nested-alias table of the claim. -/
theorem resolve_longest_alias_witness :
    resolveAliasBase
        [("@/", "/root/src/"), ("@/components", "/root/src/ui/")]
        "@/components/Button"
      = (specSelectAlias
          [("@/", "/root/src/"), ("@/components", "/root/src/ui/")]
          "@/components/Button").map
          (fun al => al.2 ++ "@/components/Button".drop al.1.length)
    ∧ specSelectAlias
        [("@/", "/root/src/"), ("@/components", "/root/src/ui/")]
        "@/components/Button" = some ("@/components", "/root/src/ui/")
    ∧ resolveAliasBase
        [("@/", "/root/src/"), ("@/components", "/root/src/ui/")]
        "@/components/Button" = some ("/root/src/ui/" ++ "/Button") :=
  resolve_longest_alias
    [("@/", "/root/src/"), ("@/components", "/root/src/ui/")]
    "@/components/Button" (by decide)

/-- C3 counterexample: with the single registered alias `""` (the cleaned
form of a tsconfig `paths` key `"*"`), the specifier starts with the empty
prefix, the longest-prefix rule of the claim selects it and substitutes its
target, but the code's `alias.length > bestMatch.length` comparison never
selects it and `resolve` returns `null`. -/
theorem resolve_alias_empty_counterexample :
    resolveAliasBase [("", "/root/src/")] "lib/util" = none
    ∧ specSelectAlias [("", "/root/src/")] "lib/util"
        = some ("", "/root/src/")
    ∧ (specSelectAlias [("", "/root/src/")] "lib/util").map
        (fun al => al.2 ++ "lib/util".drop al.1.length)
        = some "/root/src/lib/util" := by
  decide

/-- `PathResolver.EXTENSIONS` (PathResolver.ts 10-20): bare path first, then
source extensions, then index-file forms. -/
def EXTENSIONS : List String :=
  ["", ".ts", ".tsx", ".js", ".jsx",
   "/index.ts", "/index.tsx", "/index.js", "/index.jsx"]

/-- File-system view used by the resolver (`fs.existsSync` and
`fs.statSync(..).isFile()`), a parameter of the embedding. -/
structure FileSystem where
  existsSync : String → Bool
  isFile : String → Bool

/-- Probe loop of `PathResolver.resolveWithExtensions` (PathResolver.ts
258-266). -/
def resolveExtLoop (fsys : FileSystem) (basePath : String) :
    List String → Option String
  | [] => none
  | e :: rest =>
    if fsys.existsSync (basePath ++ e) && fsys.isFile (basePath ++ e) then
      some (basePath ++ e)
    else resolveExtLoop fsys basePath rest

/-- `PathResolver.resolveWithExtensions`: probe the base path against every
candidate suffix in the fixed `EXTENSIONS` order. -/
def resolveWithExtensions (fsys : FileSystem) (basePath : String) :
    Option String :=
  resolveExtLoop fsys basePath EXTENSIONS

theorem resolveExtLoop_eq_find (fsys : FileSystem) (basePath : String) :
    ∀ l : List String,
      resolveExtLoop fsys basePath l
        = (l.find? (fun e =>
            fsys.existsSync (basePath ++ e)
              && fsys.isFile (basePath ++ e))).map
            (fun e => basePath ++ e)
  | [] => rfl
  | e :: rest => by
    rw [resolveExtLoop]
    by_cases h : (fsys.existsSync (basePath ++ e)
        && fsys.isFile (basePath ++ e)) = true
    · rw [if_pos h]
      simp only [List.find?_cons, h, Option.map_some']
    · rw [if_neg h]
      rw [Bool.not_eq_true] at h
      simp only [List.find?_cons, h]
      exact resolveExtLoop_eq_find fsys basePath rest

/-- C4: the resolver probes the base path with no suffix first, then each
source-file extension, then the index-file forms, in the fixed `EXTENSIONS`
order; the first candidate that exists and is a regular file is returned,
`none` when no candidate qualifies; with both `util.ts` and `util/index.ts`
on disk, `./util` resolves to `util.ts`. -/
theorem extension_probing_order (fsys : FileSystem) (basePath : String) :
    resolveWithExtensions fsys basePath
      = (EXTENSIONS.find? (fun e =>
          fsys.existsSync (basePath ++ e)
            && fsys.isFile (basePath ++ e))).map (fun e => basePath ++ e)
    ∧ (resolveWithExtensions fsys basePath = none ↔
        ∀ e ∈ EXTENSIONS,
          (fsys.existsSync (basePath ++ e)
            && fsys.isFile (basePath ++ e)) = false)
    ∧ resolveWithExtensions
        ⟨fun q => q == "/w/util.ts" || q == "/w/util/index.ts",
         fun q => q == "/w/util.ts" || q == "/w/util/index.ts"⟩ "/w/util"
        = some "/w/util.ts" := by
  refine ⟨resolveExtLoop_eq_find fsys basePath EXTENSIONS, ?_, by decide⟩
  rw [resolveWithExtensions, resolveExtLoop_eq_find fsys basePath EXTENSIONS]
  rw [Option.map_eq_none']
  rw [List.find?_eq_none]
  constructor
  · intro h e he
    simpa using h e he
  · intro h e he
    simp [h e he]

/-! ### Cycle detection: `DependencyIndexer` -/

/-- The forward map of the index as seen by the cycle detectors: a JS
`Map<string, Set<string>>` in insertion order — keys distinct in reachable
states, each value a duplicate-free resolved-import list. -/
abbrev Graph := List (String × List String)

/-- JS `Map.get` with exact key equality over the insertion-ordered
entries. -/
def alookup {β : Type} : List (String × β) → String → Option β
  | [], _ => none
  | kv :: rest, key => if key = kv.1 then some kv.2 else alookup rest key

/-- `this.index.forward.get(node)`: a missing entry yields no successors. -/
def depsOf (g : Graph) (node : String) : List String :=
  (alookup g node).getD []

/-- `Array.prototype.indexOf` over the current path (total here: the caller
checks membership first). -/
def indexOfStr : List String → String → Nat
  | [], _ => 0
  | x :: rest, t => if t = x then 0 else indexOfStr rest t + 1

/-- State of the local DFS of `findCircularDependencies`
(DependencyIndexer.ts 164-203): the `visited` set, the current path stack
(`currentPath`, last element on top) and the collected cycles. -/
structure DfsState where
  visited : List String
  path : List String
  cycles : List (List String)

/-- One `dfs(current)` call of `findCircularDependencies`
(DependencyIndexer.ts 169-197), fuel-structural: the JS recursion
terminates because `visited` only grows; the fuel handed out by
`findCircularDependencies` exceeds the number of known nodes and hence the
depth any run can reach, and an exhausted-fuel call returns its state
unchanged. -/
def dfsVisit (g : Graph) (target : String) :
    Nat → DfsState → String → DfsState
  | 0, st, _ => st
  | fuel + 1, st, current =>
    if current ∈ st.path then
      let cycle := st.path.drop (indexOfStr st.path current) ++ [current]
      if target ∈ cycle then { st with cycles := st.cycles ++ [cycle] }
      else st
    else if current ∈ st.visited then st
    else
      let st1 : DfsState :=
        { st with visited := st.visited ++ [current],
                  path := st.path ++ [current] }
      let st2 := (depsOf g current).foldl
        (fun s d => dfsVisit g target fuel s d) st1
      { st2 with path := st2.path.dropLast }

/-- Every node name the graph mentions (keys and successors). -/
def univList (g : Graph) : List String :=
  g.foldl (fun acc kv => setAdd (kv.2.foldl setAdd acc) kv.1) []

/-- Recursion-depth bound used to run the DFS. -/
def dfsFuel (g : Graph) : Nat := (univList g).length + 1

/-- JS `<` on strings (lexicographic), modelled on the character lists
underlying Lean strings. -/
def charListLt : List Char → List Char → Bool
  | [], [] => false
  | [], _ :: _ => true
  | _ :: _, [] => false
  | c :: cs, d :: ds =>
    if c < d then true else if d < c then false else charListLt cs ds

/-- JS `path < arr[minIdx]` string comparison. -/
def strLt (s t : String) : Bool := charListLt s.data t.data

/-- Normalisation step of `deduplicateCycles` (DependencyIndexer.ts
213-225): drop the closure duplicate, locate the first lexicographically
smallest element (the JS `reduce` with strict `<`), rotate the cycle to
start there and close it again; the result is only used as the dedup key. -/
def normalizeCycle (cycle : List String) : List String :=
  let withoutLast := cycle.dropLast
  let minIndex := (List.range withoutLast.length).foldl
    (fun minIdx idx =>
      if strLt (withoutLast.getD idx "") (withoutLast.getD minIdx "") then idx
      else minIdx) 0
  withoutLast.drop minIndex ++ withoutLast.take minIndex
    ++ [withoutLast.getD minIndex ""]

/-- The dedup key `normalized.join(" -> ")`. -/
def cycleKey (cycle : List String) : String :=
  String.intercalate " -> " (normalizeCycle cycle)

/-- One iteration of the `deduplicateCycles` loop, on the pair of seen keys
and kept cycles; note that the kept entry is the original (still closed)
cycle, not its normalised form. -/
def dedupStep (acc : List String × List (List String))
    (cycle : List String) : List String × List (List String) :=
  if cycleKey cycle ∈ acc.1 then acc
  else (acc.1 ++ [cycleKey cycle], acc.2 ++ [cycle])

/-- `deduplicateCycles` (DependencyIndexer.ts 208-233). -/
def deduplicateCycles (cycles : List (List String)) : List (List String) :=
  (cycles.foldl dedupStep ([], [])).2

/-- `findCircularDependencies` (DependencyIndexer.ts 164-203). -/
def findCircularDependencies (g : Graph) (filePath : String) :
    List (List String) :=
  deduplicateCycles
    (dfsVisit g filePath (dfsFuel g) ⟨[], [], []⟩ filePath).cycles

/-- State of Tarjan's algorithm in `findAllCyclesWithTarjan`
(DependencyIndexer.ts 267-325); the stack keeps its top at the head, and
`indices`/`lowLinks` are JS `Map`s modelled as shadowing association lists
(a `set` prepends, a lookup takes the newest binding). -/
structure TarjanState where
  nextIndex : Nat
  stack : List String
  onStack : List String
  indices : List (String × Nat)
  lowLinks : List (String × Nat)
  sccs : List (List String)

/-- Pop the Tarjan stack down to `node` inclusive: the do/while loop of
DependencyIndexer.ts 303-308, returning the SCC in pop order and the
remaining stack. -/
def popScc : List String → String → List String × List String
  | [], _ => ([], [])
  | w :: rest, node =>
    if w = node then ([w], rest)
    else
      let pr := popScc rest node
      (w :: pr.1, pr.2)

/-- `strongConnect` (DependencyIndexer.ts 275-315), fuel-structural: the JS
recursion terminates because every call immediately indexes its node and
only unindexed successors are recursed into; the fuel handed out by
`findAllCyclesWithTarjan` exceeds the number of known nodes, and an
exhausted-fuel call returns its state unchanged. -/
def strongConnect (g : Graph) : Nat → TarjanState → String → TarjanState
  | 0, st, _ => st
  | fuel + 1, st, node =>
    let st1 : TarjanState :=
      { st with
          indices := (node, st.nextIndex) :: st.indices
          lowLinks := (node, st.nextIndex) :: st.lowLinks
          nextIndex := st.nextIndex + 1
          stack := node :: st.stack
          onStack := setAdd st.onStack node }
    let st2 := (depsOf g node).foldl
      (fun s successor =>
        if (alookup s.indices successor).isNone then
          let s2 := strongConnect g fuel s successor
          { s2 with lowLinks :=
              (node, min ((alookup s2.lowLinks node).getD 0)
                ((alookup s2.lowLinks successor).getD 0)) :: s2.lowLinks }
        else if successor ∈ s.onStack then
          { s with lowLinks :=
              (node, min ((alookup s.lowLinks node).getD 0)
                ((alookup s.indices successor).getD 0)) :: s.lowLinks }
        else s) st1
    if alookup st2.lowLinks node = alookup st2.indices node then
      let pr := popScc st2.stack node
      { st2 with
          stack := pr.2
          onStack := pr.1.foldl (fun o w => o.erase w) st2.onStack
          sccs := if 1 < pr.1.length then st2.sccs ++ [pr.1] else st2.sccs }
    else st2

/-- Recursion-depth bound used to run `strongConnect`. -/
def tarjanFuel (g : Graph) : Nat := (univList g).length + 1

/-- `findAllCyclesWithTarjan` (DependencyIndexer.ts 267-325): run
`strongConnect` over every not-yet-indexed key of the forward map, in
insertion order; only SCCs with more than one member are kept. -/
def findAllCyclesWithTarjan (g : Graph) : List (List String) :=
  ((g.map Prod.fst).foldl
    (fun st node =>
      if (alookup st.indices node).isNone then
        strongConnect g (tarjanFuel g) st node
      else st)
    ⟨0, [], [], [], [], []⟩).sccs

/-- `CycleSeverity` (types.ts). -/
inductive CycleSeverity where
  | critical
  | moderate
  | low
deriving DecidableEq, Repr

/-- `CycleInfo` (types.ts); the JS float score is modelled in `ℚ`. -/
structure CycleInfo where
  files : List String
  severity : CycleSeverity
  score : ℚ
  dependentCount : Nat
deriving DecidableEq, Repr

/-- The index as read by the global detector: forward and reverse maps in
insertion order. -/
structure IndexMaps where
  forward : Graph
  reverse : Graph

/-- `countDependentsForCycle` (DependencyIndexer.ts 331-347): the number of
distinct files outside the cycle holding a reverse edge into it. -/
def countDependentsForCycle (idx : IndexMaps) (cycleFiles : List String) :
    Nat :=
  (cycleFiles.foldl
    (fun dependents file =>
      ((alookup idx.reverse file).getD []).foldl
        (fun ds dep => if dep ∈ cycleFiles then ds else setAdd ds dep)
        dependents)
    []).length

/-- `calculateCycleSeverity` (DependencyIndexer.ts 353-377); the JS number
constants 0.4, 0.6, 0.3, 0.5, 0.25 are modelled as exact rationals. -/
def calculateCycleSeverity (cycleLength dependentCount totalFiles : Nat) :
    CycleSeverity × ℚ :=
  let lengthScore : ℚ :=
    if cycleLength ≤ 2 then 1 else if cycleLength ≤ 4 then 6/10 else 3/10
  let dependentScore : ℚ :=
    if 0 < totalFiles then min ((dependentCount : ℚ) / (totalFiles : ℚ)) 1
    else 0
  let score := lengthScore * (4/10) + dependentScore * (6/10)
  let severity :=
    if (5:ℚ)/10 ≤ score then CycleSeverity.critical
    else if (25:ℚ)/100 ≤ score then CycleSeverity.moderate
    else CycleSeverity.low
  (severity, score)

/-- The `map` step of `getAllCircularDependencies` before sorting
(DependencyIndexer.ts 239-257); `totalFiles` is `this.index.forward.size`. -/
def cycleInfos (idx : IndexMaps) : List CycleInfo :=
  (findAllCyclesWithTarjan idx.forward).map
    (fun files =>
      let dependentCount := countDependentsForCycle idx files
      let sevScore := calculateCycleSeverity files.length dependentCount
        idx.forward.length
      ⟨files, sevScore.1, sevScore.2, dependentCount⟩)

/-- Stable insertion into a score-descending list: the new element goes
after every element whose score is at least its own. -/
def insertByScore (c : CycleInfo) : List CycleInfo → List CycleInfo
  | [] => [c]
  | d :: rest =>
    if d.score ≤ c.score then c :: d :: rest else d :: insertByScore c rest

/-- `cycleInfos.sort((a, b) => b.score - a.score)` (DependencyIndexer.ts
260): ECMAScript `Array.sort` is stable and consistent with the comparator,
which pins down its result; the stable insertion sort realises it. -/
def sortByScore (l : List CycleInfo) : List CycleInfo :=
  l.foldr insertByScore []

/-- `getAllCircularDependencies` (DependencyIndexer.ts 239-261). -/
def getAllCircularDependencies (idx : IndexMaps) : List CycleInfo :=
  sortByScore (cycleInfos idx)

/-- The record returned by `getCyclesBySeverity`. -/
structure GroupedCycles where
  critical : List CycleInfo
  moderate : List CycleInfo
  low : List CycleInfo

/-- `getCyclesBySeverity` (DependencyIndexer.ts 382-390). -/
def getCyclesBySeverity (idx : IndexMaps) : GroupedCycles :=
  let allCycles := getAllCircularDependencies idx
  ⟨allCycles.filter (fun c => decide (c.severity = CycleSeverity.critical)),
   allCycles.filter (fun c => decide (c.severity = CycleSeverity.moderate)),
   allCycles.filter (fun c => decide (c.severity = CycleSeverity.low))⟩

/-! ### Lemmas about the stable sort -/

theorem insertByScore_mem (c x : CycleInfo) :
    ∀ l : List CycleInfo, x ∈ insertByScore c l ↔ x = c ∨ x ∈ l
  | [] => by simp [insertByScore]
  | d :: rest => by
    rw [insertByScore]
    by_cases h : d.score ≤ c.score
    · rw [if_pos h]
      simp only [List.mem_cons]
    · rw [if_neg h]
      simp only [List.mem_cons, insertByScore_mem c x rest]
      tauto

theorem sortByScore_mem (x : CycleInfo) :
    ∀ l : List CycleInfo, x ∈ sortByScore l ↔ x ∈ l
  | [] => Iff.rfl
  | c :: rest => by
    show x ∈ insertByScore c (sortByScore rest) ↔ _
    rw [insertByScore_mem, sortByScore_mem x rest]
    simp only [List.mem_cons]

theorem insertByScore_pairwise {l : List CycleInfo} (c : CycleInfo)
    (h : l.Pairwise (fun a b => b.score ≤ a.score)) :
    (insertByScore c l).Pairwise (fun a b => b.score ≤ a.score) := by
  induction l with
  | nil => simp [insertByScore]
  | cons d rest ih =>
    rw [insertByScore]
    obtain ⟨hd, hrest⟩ := List.pairwise_cons.1 h
    by_cases hdc : d.score ≤ c.score
    · rw [if_pos hdc]
      refine List.pairwise_cons.2 ⟨?_, h⟩
      intro y hy
      rcases List.mem_cons.1 hy with rfl | hy2
      · exact hdc
      · exact le_trans (hd y hy2) hdc
    · rw [if_neg hdc]
      refine List.pairwise_cons.2 ⟨?_, ih hrest⟩
      intro y hy
      rcases (insertByScore_mem c y rest).1 hy with rfl | hy2
      · exact le_of_lt (lt_of_not_le hdc)
      · exact hd y hy2

theorem sortByScore_pairwise :
    ∀ l : List CycleInfo,
      (sortByScore l).Pairwise (fun a b => b.score ≤ a.score)
  | [] => List.Pairwise.nil
  | c :: rest => insertByScore_pairwise c (sortByScore_pairwise rest)

theorem insertByScore_filter_score (c : CycleInfo) (q : ℚ) :
    ∀ l : List CycleInfo,
      (insertByScore c l).filter (fun d => decide (d.score = q))
        = if c.score = q then
            c :: l.filter (fun d => decide (d.score = q))
          else l.filter (fun d => decide (d.score = q))
  | [] => by
    by_cases h : c.score = q <;> simp [insertByScore, h]
  | d :: rest => by
    rw [insertByScore]
    by_cases hdc : d.score ≤ c.score
    · rw [if_pos hdc]
      by_cases h : c.score = q <;> simp [h, List.filter_cons]
    · rw [if_neg hdc]
      have hlt : c.score < d.score := lt_of_not_le hdc
      have ih := insertByScore_filter_score c q rest
      by_cases h : c.score = q
      · have hdq : d.score ≠ q := by
          intro hq
          rw [h] at hlt
          rw [hq] at hlt
          exact lt_irrefl q hlt
        simp [List.filter_cons, ih, h, hdq]
      · simp [List.filter_cons, ih, h]

theorem sortByScore_filter_score (q : ℚ) :
    ∀ l : List CycleInfo,
      (sortByScore l).filter (fun d => decide (d.score = q))
        = l.filter (fun d => decide (d.score = q))
  | [] => rfl
  | c :: rest => by
    show (insertByScore c (sortByScore rest)).filter _ = _
    rw [insertByScore_filter_score c q (sortByScore rest),
      sortByScore_filter_score q rest, List.filter_cons]
    by_cases h : c.score = q
    · simp [h]
    · simp [h]

theorem filter_severity_length :
    ∀ l : List CycleInfo,
      (l.filter (fun c => decide (c.severity = CycleSeverity.critical))).length
        + (l.filter (fun c => decide (c.severity = CycleSeverity.moderate))).length
        + (l.filter (fun c => decide (c.severity = CycleSeverity.low))).length
        = l.length
  | [] => rfl
  | c :: rest => by
    rw [List.filter_cons, List.filter_cons, List.filter_cons]
    have h := filter_severity_length rest
    cases hs : c.severity <;> simp [hs] <;> omega

/-! ### Spec-side severity components -/

/-- Modelled from the spec: the length component of the severity score
(1.0 for length at most 2, 0.6 for at most 4, else 0.3). -/
def specLengthScore (cycleLength : Nat) : ℚ :=
  if cycleLength ≤ 2 then 1 else if cycleLength ≤ 4 then 6/10 else 3/10

/-- Modelled from the spec: the dependents component of the severity score
(`min(dependentCount / totalIndexedFiles, 1)`, and 0 on an empty index). -/
def specDependentScore (dependentCount totalFiles : Nat) : ℚ :=
  if 0 < totalFiles then min ((dependentCount : ℚ) / (totalFiles : ℚ)) 1
  else 0

/-- C5: every cycle reported by the global detector carries the score
`0.4 · lengthScore + 0.6 · dependentScore` (with the 1 / 0.6 / 0.3 length
component and the capped dependents component, 0 on an empty index) and the
severity label derived from the 0.5 and 0.25 cutoffs on that score. -/
theorem cycle_severity_formula (idx : IndexMaps) (c : CycleInfo)
    (hc : c ∈ getAllCircularDependencies idx) :
    c.score = (4/10) * specLengthScore c.files.length
        + (6/10) * specDependentScore c.dependentCount idx.forward.length
    ∧ c.severity =
        (if (5:ℚ)/10 ≤ c.score then CycleSeverity.critical
         else if (25:ℚ)/100 ≤ c.score then CycleSeverity.moderate
         else CycleSeverity.low) := by
  rw [getAllCircularDependencies, sortByScore_mem] at hc
  rw [cycleInfos] at hc
  obtain ⟨files, _, hceq⟩ := List.mem_map.1 hc
  subst hceq
  simp only [calculateCycleSeverity, specLengthScore, specDependentScore]
  constructor
  · ring
  · trivial

/-- Witness for C5 on a two-file index holding one two-cycle. -/
theorem cycle_severity_formula_witness :
    (⟨["B", "A"], CycleSeverity.moderate, 2/5, 0⟩ : CycleInfo).score
        = (4/10) * specLengthScore
            (CycleInfo.files ⟨["B", "A"], CycleSeverity.moderate, 2/5, 0⟩).length
          + (6/10) * specDependentScore
            (CycleInfo.dependentCount ⟨["B", "A"], CycleSeverity.moderate, 2/5, 0⟩)
            (IndexMaps.forward
              ⟨[("A", ["B"]), ("B", ["A"])], [("A", ["B"]), ("B", ["A"])]⟩).length
    ∧ (⟨["B", "A"], CycleSeverity.moderate, 2/5, 0⟩ : CycleInfo).severity
        = (if (5:ℚ)/10
              ≤ (⟨["B", "A"], CycleSeverity.moderate, 2/5, 0⟩ : CycleInfo).score
           then CycleSeverity.critical
           else if (25:ℚ)/100
              ≤ (⟨["B", "A"], CycleSeverity.moderate, 2/5, 0⟩ : CycleInfo).score
           then CycleSeverity.moderate
           else CycleSeverity.low) := by
  have htar : findAllCyclesWithTarjan [("A", ["B"]), ("B", ["A"])]
      = [["B", "A"]] := by decide
  have hdc : countDependentsForCycle
      ⟨[("A", ["B"]), ("B", ["A"])], [("A", ["B"]), ("B", ["A"])]⟩
      ["B", "A"] = 0 := by decide
  have hsev : calculateCycleSeverity 2 0 2 = (CycleSeverity.moderate, 2/5) := by
    rw [calculateCycleSeverity]
    norm_num
  have hinfos : cycleInfos
      ⟨[("A", ["B"]), ("B", ["A"])], [("A", ["B"]), ("B", ["A"])]⟩
      = [⟨["B", "A"], CycleSeverity.moderate, 2/5, 0⟩] := by
    rw [cycleInfos, htar]
    simp only [List.map_cons, List.map_nil, hdc, List.length_cons,
      List.length_nil, List.length_singleton]
    rw [hsev]
  have hall : getAllCircularDependencies
      ⟨[("A", ["B"]), ("B", ["A"])], [("A", ["B"]), ("B", ["A"])]⟩
      = [⟨["B", "A"], CycleSeverity.moderate, 2/5, 0⟩] := by
    rw [getAllCircularDependencies, hinfos]
    rfl
  exact cycle_severity_formula
    ⟨[("A", ["B"]), ("B", ["A"])], [("A", ["B"]), ("B", ["A"])]⟩
    ⟨["B", "A"], CycleSeverity.moderate, 2/5, 0⟩
    (by rw [hall]; exact List.mem_singleton_self _)

/-- C8: the global result is ordered by score descending, cycles of equal
score keep their discovery (pre-sort `cycleInfos`) order, and the grouped
view is exactly the severity-label partition of that sequence, each group
keeping the score order. -/
theorem cycles_sorted_and_grouped (idx : IndexMaps) :
    (getAllCircularDependencies idx).Pairwise (fun x y => y.score ≤ x.score)
    ∧ (∀ q : ℚ,
        (getAllCircularDependencies idx).filter (fun c => decide (c.score = q))
          = (cycleInfos idx).filter (fun c => decide (c.score = q)))
    ∧ (getCyclesBySeverity idx).critical
        = (getAllCircularDependencies idx).filter
            (fun c => decide (c.severity = CycleSeverity.critical))
    ∧ (getCyclesBySeverity idx).moderate
        = (getAllCircularDependencies idx).filter
            (fun c => decide (c.severity = CycleSeverity.moderate))
    ∧ (getCyclesBySeverity idx).low
        = (getAllCircularDependencies idx).filter
            (fun c => decide (c.severity = CycleSeverity.low))
    ∧ (getCyclesBySeverity idx).critical.length
        + (getCyclesBySeverity idx).moderate.length
        + (getCyclesBySeverity idx).low.length
        = (getAllCircularDependencies idx).length
    ∧ (getCyclesBySeverity idx).critical.Pairwise
        (fun x y => y.score ≤ x.score)
    ∧ (getCyclesBySeverity idx).moderate.Pairwise
        (fun x y => y.score ≤ x.score)
    ∧ (getCyclesBySeverity idx).low.Pairwise
        (fun x y => y.score ≤ x.score) := by
  have hp : (getAllCircularDependencies idx).Pairwise
      (fun x y => y.score ≤ x.score) := sortByScore_pairwise (cycleInfos idx)
  refine ⟨hp, fun q => sortByScore_filter_score q (cycleInfos idx),
    rfl, rfl, rfl, filter_severity_length _, ?_, ?_, ?_⟩
  · exact hp.sublist (List.filter_sublist _)
  · exact hp.sublist (List.filter_sublist _)
  · exact hp.sublist (List.filter_sublist _)

/-! ### Lemmas about the local DFS -/

theorem dfsVisit_path (g : Graph) (target : String) :
    ∀ (fuel : Nat) (st : DfsState) (cur : String),
      (dfsVisit g target fuel st cur).path = st.path
  | 0, _, _ => rfl
  | fuel + 1, st, cur => by
    have hfold : ∀ (l : List String) (s : DfsState),
        (l.foldl (fun s d => dfsVisit g target fuel s d) s).path = s.path := by
      intro l
      induction l with
      | nil => intro s; rfl
      | cons d rest ih =>
        intro s
        rw [List.foldl_cons, ih (dfsVisit g target fuel s d),
          dfsVisit_path g target fuel s d]
    simp only [dfsVisit]
    split_ifs
    · rfl
    · rfl
    · rfl
    · show ((depsOf g cur).foldl (fun s d => dfsVisit g target fuel s d)
          ⟨st.visited ++ [cur], st.path ++ [cur], st.cycles⟩).path.dropLast
          = st.path
      rw [hfold, List.dropLast_concat]

theorem dfsVisit_cycles_grow (g : Graph) (target : String) :
    ∀ (fuel : Nat) (st : DfsState) (cur : String),
      st.cycles <+: (dfsVisit g target fuel st cur).cycles
  | 0, _, _ => List.prefix_refl _
  | fuel + 1, st, cur => by
    have hfold : ∀ (l : List String) (s : DfsState),
        s.cycles <+:
          (l.foldl (fun s d => dfsVisit g target fuel s d) s).cycles := by
      intro l
      induction l with
      | nil => intro s; exact List.prefix_refl _
      | cons d rest ih =>
        intro s
        rw [List.foldl_cons]
        exact (dfsVisit_cycles_grow g target fuel s d).trans
          (ih (dfsVisit g target fuel s d))
    simp only [dfsVisit]
    split_ifs
    · exact List.prefix_append _ _
    · exact List.prefix_refl _
    · exact List.prefix_refl _
    · show st.cycles <+:
        ((depsOf g cur).foldl (fun s d => dfsVisit g target fuel s d)
          ⟨st.visited ++ [cur], st.path ++ [cur], st.cycles⟩).cycles
      exact hfold (depsOf g cur)
        ⟨st.visited ++ [cur], st.path ++ [cur], st.cycles⟩

theorem indexOfStr_drop {x : String} :
    ∀ {l : List String}, x ∈ l → ∃ t, l.drop (indexOfStr l x) = x :: t
  | [], h => absurd h (List.not_mem_nil x)
  | y :: rest, h => by
    rw [indexOfStr]
    by_cases hxy : x = y
    · subst hxy
      rw [if_pos rfl]
      exact ⟨rest, rfl⟩
    · rw [if_neg hxy]
      have hmem : x ∈ rest := by
        rcases List.mem_cons.1 h with h1 | h1
        · exact absurd h1 hxy
        · exact h1
      obtain ⟨t, ht⟩ := indexOfStr_drop hmem
      exact ⟨t, by rw [List.drop_succ_cons, ht]⟩

theorem dfsVisit_cycles_closed (g : Graph) (target : String) :
    ∀ (fuel : Nat) (st : DfsState) (cur : String),
      (∀ c ∈ st.cycles, c ≠ [] ∧ c.head? = c.getLast?) →
      ∀ c ∈ (dfsVisit g target fuel st cur).cycles,
        c ≠ [] ∧ c.head? = c.getLast?
  | 0, _, _, h => h
  | fuel + 1, st, cur, h => by
    have hfold : ∀ (l : List String) (s : DfsState),
        (∀ c ∈ s.cycles, c ≠ [] ∧ c.head? = c.getLast?) →
        ∀ c ∈ (l.foldl (fun s d => dfsVisit g target fuel s d) s).cycles,
          c ≠ [] ∧ c.head? = c.getLast? := by
      intro l
      induction l with
      | nil => intro s hs; exact hs
      | cons d rest ih =>
        intro s hs
        rw [List.foldl_cons]
        exact ih _ (dfsVisit_cycles_closed g target fuel s d hs)
    simp only [dfsVisit]
    split_ifs with h1 h2 h3
    · intro c hc
      rcases List.mem_append.1 hc with hc1 | hc2
      · exact h c hc1
      · rw [List.mem_singleton] at hc2
        subst hc2
        obtain ⟨t, ht⟩ := indexOfStr_drop h1
        refine ⟨by simp, ?_⟩
        rw [ht, List.getLast?_concat]
        rfl
    · exact h
    · exact h
    · exact hfold _ _ h

theorem dedup_foldl_subset :
    ∀ (l : List (List String)) (acc : List String × List (List String))
      (c : List String), c ∈ (l.foldl dedupStep acc).2 → c ∈ acc.2 ∨ c ∈ l
  | [], _, _, h => Or.inl h
  | cy :: rest, acc, c, h => by
    rw [List.foldl_cons] at h
    rcases dedup_foldl_subset rest (dedupStep acc cy) c h with h1 | h1
    · rw [dedupStep] at h1
      by_cases hk : cycleKey cy ∈ acc.1
      · rw [if_pos hk] at h1
        exact Or.inl h1
      · rw [if_neg hk] at h1
        rcases List.mem_append.1 h1 with h2 | h2
        · exact Or.inl h2
        · rw [List.mem_singleton] at h2
          exact Or.inr (by rw [h2]; exact List.mem_cons_self cy rest)
    · exact Or.inr (List.mem_cons_of_mem cy h1)

theorem deduplicateCycles_subset {cycles : List (List String)}
    {c : List String} (h : c ∈ deduplicateCycles cycles) : c ∈ cycles := by
  rcases dedup_foldl_subset cycles ([], []) c h with h1 | h1
  · exact absurd h1 (List.not_mem_nil c)
  · exact h1

/-- C9 counterexample: on the two-cycle A↔B the local detector returns the
cycle still in closed form — its last element repeats its first. -/
theorem local_closed_form_counterexample :
    findCircularDependencies [("A", ["B"]), ("B", ["A"])] "A"
      = [["A", "B", "A"]]
    ∧ (["A", "B", "A"] : List String).getLast?
        = (["A", "B", "A"] : List String).head?
    ∧ 1 < (["A", "B", "A"] : List String).length := by
  decide

/-- C9 (amended): every sequence returned by `findCircularDependencies` is
a nonempty closed cycle — its last element still equals its first; the
rotation normal form is computed only as the deduplication key, never
returned. -/
theorem local_cycles_closed (g : Graph) (p : String) (c : List String)
    (hc : c ∈ findCircularDependencies g p) :
    c ≠ [] ∧ c.head? = c.getLast? := by
  have hraw : c ∈ (dfsVisit g p (dfsFuel g) ⟨[], [], []⟩ p).cycles :=
    deduplicateCycles_subset hc
  exact dfsVisit_cycles_closed g p (dfsFuel g) ⟨[], [], []⟩ p
    (fun c2 hc2 => absurd hc2 (List.not_mem_nil c2)) c hraw

/-- Witness for C9 (amended) on the two-cycle A↔B. -/
theorem local_cycles_closed_witness :
    (["A", "B", "A"] : List String) ≠ []
    ∧ (["A", "B", "A"] : List String).head?
        = (["A", "B", "A"] : List String).getLast? :=
  local_cycles_closed [("A", ["B"]), ("B", ["A"])] "A" ["A", "B", "A"]
    (by decide)

/-! ### Self-loop behaviour of the two detectors -/

theorem foldl_inv {α β : Type} (P : β → Prop) (f : β → α → β)
    (hf : ∀ s a, P s → P (f s a)) :
    ∀ (l : List α) (s : β), P s → P (l.foldl f s)
  | [], _, h => h
  | a :: rest, s, h => foldl_inv P f hf rest (f s a) (hf s a h)

theorem finish_sccs (st2 : TarjanState) (node : String)
    (h : ∀ c ∈ st2.sccs, 1 < c.length) :
    ∀ c ∈ (if alookup st2.lowLinks node = alookup st2.indices node then
        { st2 with
            stack := (popScc st2.stack node).2
            onStack := (popScc st2.stack node).1.foldl
              (fun o w => o.erase w) st2.onStack
            sccs := if 1 < (popScc st2.stack node).1.length
                    then st2.sccs ++ [(popScc st2.stack node).1]
                    else st2.sccs }
      else st2).sccs, 1 < c.length := by
  split_ifs with h1 h2
  · intro c hc
    rcases List.mem_append.1 hc with hc1 | hc2
    · exact h c hc1
    · rw [List.mem_singleton] at hc2
      rw [hc2]
      exact h2
  · exact h
  · exact h

theorem strongConnect_sccs_length (g : Graph) :
    ∀ (fuel : Nat) (st : TarjanState) (node : String),
      (∀ c ∈ st.sccs, 1 < c.length) →
      ∀ c ∈ (strongConnect g fuel st node).sccs, 1 < c.length
  | 0, _, _, h => h
  | fuel + 1, st, node, h => by
    simp only [strongConnect]
    apply finish_sccs
    apply foldl_inv (fun s : TarjanState => ∀ c ∈ s.sccs, 1 < c.length)
    · intro s successor hs
      split_ifs
      · exact strongConnect_sccs_length g fuel s successor hs
      · exact hs
      · exact hs
    · exact h

theorem findAllCyclesWithTarjan_length (g : Graph) :
    ∀ c ∈ findAllCyclesWithTarjan g, 1 < c.length := by
  rw [findAllCyclesWithTarjan]
  apply foldl_inv (fun st : TarjanState => ∀ c ∈ st.sccs, 1 < c.length)
  · intro s node hs
    by_cases hidx : (alookup s.indices node).isNone = true
    · rw [if_pos hidx]
      exact strongConnect_sccs_length g (tarjanFuel g) s node hs
    · rw [if_neg hidx]
      exact hs
  · intro c hc
    exact absurd hc (List.not_mem_nil c)

theorem univList_fold_mem :
    ∀ (g : Graph) (acc : List String) (x : String),
      x ∈ g.foldl (fun acc kv => setAdd (kv.2.foldl setAdd acc) kv.1) acc ↔
        x ∈ acc ∨ ∃ kv ∈ g, x = kv.1 ∨ x ∈ kv.2
  | [], acc, x => by simp
  | kv :: rest, acc, x => by
    rw [List.foldl_cons, univList_fold_mem rest _ x, mem_setAdd,
      foldl_setAdd_mem]
    constructor
    · rintro (((hacc | hkv2) | hk1) | ⟨kv2, hkv2mem, hor⟩)
      · exact Or.inl hacc
      · exact Or.inr ⟨kv, List.mem_cons_self kv rest, Or.inr hkv2⟩
      · exact Or.inr ⟨kv, List.mem_cons_self kv rest, Or.inl hk1⟩
      · exact Or.inr ⟨kv2, List.mem_cons_of_mem kv hkv2mem, hor⟩
    · rintro (hacc | ⟨kv2, hkv2mem, hor⟩)
      · exact Or.inl (Or.inl (Or.inl hacc))
      · rcases List.mem_cons.1 hkv2mem with heq | hrest
        · subst heq
          rcases hor with h1 | h2
          · exact Or.inl (Or.inr h1)
          · exact Or.inl (Or.inl (Or.inr h2))
        · exact Or.inr ⟨kv2, hrest, hor⟩

theorem alookup_some_mem {β : Type} :
    ∀ {m : List (String × β)} {k : String} {v : β},
      alookup m k = some v → ∃ kv ∈ m, kv.2 = v
  | [], _, _, h => absurd h (by rw [alookup]; exact Option.noConfusion)
  | kv :: rest, k, v, h => by
    rw [alookup] at h
    by_cases hk : k = kv.1
    · rw [if_pos hk] at h
      exact ⟨kv, List.mem_cons_self kv rest, Option.some.inj h⟩
    · rw [if_neg hk] at h
      obtain ⟨kv2, hm, hv⟩ := alookup_some_mem h
      exact ⟨kv2, List.mem_cons_of_mem kv hm, hv⟩

theorem mem_univList_of_dep {g : Graph} {k x : String}
    (h : x ∈ depsOf g k) : x ∈ univList g := by
  rw [depsOf] at h
  rcases halk : alookup g k with _ | l
  · rw [halk] at h
    exact absurd h (List.not_mem_nil x)
  · rw [halk] at h
    obtain ⟨kv, hkvg, hkv2⟩ := alookup_some_mem halk
    rw [univList, univList_fold_mem]
    exact Or.inr ⟨kv, hkvg, Or.inr (by rw [hkv2]; exact h)⟩

theorem dfs_foldl_cycles_grow (g : Graph) (target : String) (fuel : Nat) :
    ∀ (l : List String) (s : DfsState),
      s.cycles <+: (l.foldl (fun s d => dfsVisit g target fuel s d) s).cycles
  | [], _ => List.prefix_refl _
  | d :: rest, s => by
    rw [List.foldl_cons]
    exact (dfsVisit_cycles_grow g target fuel s d).trans
      (dfs_foldl_cycles_grow g target fuel rest (dfsVisit g target fuel s d))

theorem dfs_fold_self_loop (g : Graph) (A : String) (N : Nat) (hN : 1 ≤ N) :
    ∀ (l : List String) (s : DfsState), s.path = [A] → A ∈ l →
      [A, A] ∈ (l.foldl (fun s d => dfsVisit g A N s d) s).cycles
  | [], _, _, hmem => absurd hmem (List.not_mem_nil A)
  | d :: rest, s, hpath, hmem => by
    rw [List.foldl_cons]
    by_cases hd : d = A
    · subst hd
      have hrec : [d, d] ∈ (dfsVisit g d N s d).cycles := by
        obtain ⟨M, rfl⟩ : ∃ M, N = M + 1 := ⟨N - 1, by omega⟩
        simp only [dfsVisit]
        have hApath : d ∈ s.path := by
          rw [hpath]
          exact List.mem_singleton_self d
        rw [if_pos hApath]
        have hidx : s.path.drop (indexOfStr s.path d) ++ [d] = [d, d] := by
          rw [hpath]
          simp [indexOfStr]
        rw [hidx, if_pos (List.mem_cons_self d [d])]
        simp
      exact List.IsPrefix.subset
        (dfs_foldl_cycles_grow g d N rest (dfsVisit g d N s d)) hrec
    · have hmem2 : A ∈ rest := by
        rcases List.mem_cons.1 hmem with h1 | h1
        · exact absurd h1.symm hd
        · exact h1
      exact dfs_fold_self_loop g A N hN rest (dfsVisit g A N s d)
        (by rw [dfsVisit_path g A N s d, hpath]) hmem2

theorem dfsVisit_self_loop_mem (g : Graph) (A : String)
    (hA : A ∈ depsOf g A) :
    [A, A] ∈ (dfsVisit g A (dfsFuel g) ⟨[], [], []⟩ A).cycles := by
  have hfuel : 1 ≤ (univList g).length :=
    List.length_pos.2 (List.ne_nil_of_mem (mem_univList_of_dep hA))
  rw [dfsFuel]
  simp only [dfsVisit, List.not_mem_nil, if_false, List.nil_append]
  have hbase := dfs_fold_self_loop g A (univList g).length hfuel
    (depsOf g A) ⟨[A], [A], []⟩ rfl hA
  exact List.IsPrefix.subset (List.prefix_refl _)
    (by
      show [A, A] ∈ ((depsOf g A).foldl
        (fun s d => dfsVisit g A (univList g).length s d)
        ⟨[A], [A], []⟩).cycles
      exact hbase)

theorem dedup_foldl_seen_mono :
    ∀ (l : List (List String)) (acc : List String × List (List String))
      (k : String), k ∈ acc.1 → k ∈ (l.foldl dedupStep acc).1
  | [], _, _, h => h
  | cy :: rest, acc, k, h => by
    rw [List.foldl_cons]
    apply dedup_foldl_seen_mono rest
    rw [dedupStep]
    by_cases hk : cycleKey cy ∈ acc.1
    · rw [if_pos hk]
      exact h
    · rw [if_neg hk]
      exact List.mem_append_left _ h

theorem dedup_foldl_key_seen :
    ∀ (l : List (List String)) (acc : List String × List (List String))
      (c : List String), c ∈ l → cycleKey c ∈ (l.foldl dedupStep acc).1
  | [], _, c, h => absurd h (List.not_mem_nil c)
  | cy :: rest, acc, c, h => by
    rw [List.foldl_cons]
    rcases List.mem_cons.1 h with heq | hrest
    · subst heq
      apply dedup_foldl_seen_mono
      rw [dedupStep]
      by_cases hk : cycleKey c ∈ acc.1
      · rw [if_pos hk]
        exact hk
      · rw [if_neg hk]
        exact List.mem_append_right _ (List.mem_singleton_self _)
    · exact dedup_foldl_key_seen rest _ c hrest

theorem dedup_foldl_seen_covered :
    ∀ (l : List (List String)) (acc : List String × List (List String)),
      (∀ k ∈ acc.1, ∃ c2 ∈ acc.2, cycleKey c2 = k) →
      ∀ k ∈ (l.foldl dedupStep acc).1,
        ∃ c2 ∈ (l.foldl dedupStep acc).2, cycleKey c2 = k
  | [], _, hinv => hinv
  | cy :: rest, acc, hinv => by
    rw [List.foldl_cons]
    apply dedup_foldl_seen_covered rest
    intro k hk
    rw [dedupStep] at hk ⊢
    by_cases hck : cycleKey cy ∈ acc.1
    · rw [if_pos hck] at hk ⊢
      exact hinv k hk
    · rw [if_neg hck] at hk ⊢
      rcases List.mem_append.1 hk with h1 | h1
      · obtain ⟨c2, hc2, hkey⟩ := hinv k h1
        exact ⟨c2, List.mem_append_left _ hc2, hkey⟩
      · rw [List.mem_singleton] at h1
        exact ⟨cy, List.mem_append_right _ (List.mem_singleton_self _), h1.symm⟩

theorem deduplicateCycles_key_covered {cycles : List (List String)}
    {c : List String} (h : c ∈ cycles) :
    ∃ c2 ∈ deduplicateCycles cycles, cycleKey c2 = cycleKey c := by
  have h1 := dedup_foldl_key_seen cycles ([], []) c h
  have h2 := dedup_foldl_seen_covered cycles ([], [])
    (fun k hk => absurd hk (List.not_mem_nil k))
  exact h2 (cycleKey c) h1

/-- C10 counterexample: with the files named `a` and `a -> a` (the second
containing the dedup separator), the self-importing file `a -> a` sits on a
two-cycle with `a` whose dedup key collides with that of the self-loop
`[a -> a, a -> a]`, so the local detector returns no cycle whose member set
is exactly the self-importing file. -/
theorem self_loop_counterexample :
    findCircularDependencies
        [("a", ["a -> a"]), ("a -> a", ["a", "a -> a"])] "a -> a"
      = [["a -> a", "a", "a -> a"]]
    ∧ "a -> a" ∈ depsOf
        [("a", ["a -> a"]), ("a -> a", ["a", "a -> a"])] "a -> a"
    ∧ ¬ ∃ c ∈ findCircularDependencies
        [("a", ["a -> a"]), ("a -> a", ["a", "a -> a"])] "a -> a",
        ∀ x, x ∈ c ↔ x = "a -> a" := by
  have hout : findCircularDependencies
      [("a", ["a -> a"]), ("a -> a", ["a", "a -> a"])] "a -> a"
      = [["a -> a", "a", "a -> a"]] := by decide
  refine ⟨hout, by decide, ?_⟩
  rintro ⟨c, hc, hiff⟩
  rw [hout, List.mem_singleton] at hc
  have hmem : "a" ∈ c := by
    rw [hc]
    decide
  have heq := (hiff "a").1 hmem
  exact absurd heq (by decide)

/-- C10 (amended): self-imports are surfaced asymmetrically, up to
dedup-key collisions: for a file `A` with `A ∈ forward(A)` the local DFS
records the raw self-loop cycle `[A, A]`, and `findCircularDependencies A`
returns a cycle carrying its dedup key (its member set is exactly `{A}`
except when a distinct cycle shares the key, as names containing " -> "
permit); the global Tarjan pass keeps only SCCs with more than one member,
so every reported cycle has at least two files, and on the pure self-loop
index it reports nothing. -/
theorem self_loop_asymmetry (idx : IndexMaps) (A : String)
    (hA : A ∈ depsOf idx.forward A) :
    (∃ c ∈ findCircularDependencies idx.forward A,
        cycleKey c = cycleKey [A, A])
    ∧ (∀ info ∈ getAllCircularDependencies idx, 1 < info.files.length)
    ∧ getAllCircularDependencies ⟨[(A, [A])], [(A, [A])]⟩ = [] := by
  refine ⟨?_, ?_, ?_⟩
  · exact deduplicateCycles_key_covered
      (dfsVisit_self_loop_mem idx.forward A hA)
  · intro info hinfo
    rw [getAllCircularDependencies, sortByScore_mem, cycleInfos] at hinfo
    obtain ⟨files, hf, hceq⟩ := List.mem_map.1 hinfo
    rw [← hceq]
    exact findAllCyclesWithTarjan_length idx.forward files hf
  · have htar : findAllCyclesWithTarjan [(A, [A])] = [] := by
      simp [findAllCyclesWithTarjan, strongConnect, tarjanFuel, univList,
        setAdd, depsOf, alookup, popScc, List.erase_cons]
    rw [getAllCircularDependencies, cycleInfos, htar]
    rfl

set_option maxHeartbeats 2000000 in
/-- C6: with three distinct files forming the pure cycle a→b→c→a, the local
detector started from any of the three returns exactly one (closed) cycle
whose member set is {a, b, c}, and the global detector returns exactly one
SCC, of size 3, with member set {a, b, c}; on the strictly acyclic chain
a→b→c both detectors return no cycle. -/
theorem three_cycle_and_chain (a b c : String)
    (hab : a ≠ b) (hbc : b ≠ c) (hac : a ≠ c) :
    findCircularDependencies [(a, [b]), (b, [c]), (c, [a])] a = [[a, b, c, a]]
    ∧ findCircularDependencies [(a, [b]), (b, [c]), (c, [a])] b
        = [[b, c, a, b]]
    ∧ findCircularDependencies [(a, [b]), (b, [c]), (c, [a])] c
        = [[c, a, b, c]]
    ∧ [a, b, c, a].toFinset = {a, b, c}
    ∧ [b, c, a, b].toFinset = {a, b, c}
    ∧ [c, a, b, c].toFinset = {a, b, c}
    ∧ findAllCyclesWithTarjan [(a, [b]), (b, [c]), (c, [a])] = [[c, b, a]]
    ∧ ([c, b, a] : List String).length = 3
    ∧ [c, b, a].toFinset = {a, b, c}
    ∧ findCircularDependencies [(a, [b]), (b, [c]), (c, [])] a = []
    ∧ findCircularDependencies [(a, [b]), (b, [c]), (c, [])] b = []
    ∧ findCircularDependencies [(a, [b]), (b, [c]), (c, [])] c = []
    ∧ findAllCyclesWithTarjan [(a, [b]), (b, [c]), (c, [])] = [] := by
  have hba : b ≠ a := Ne.symm hab
  have hcb : c ≠ b := Ne.symm hbc
  have hca : c ≠ a := Ne.symm hac
  refine ⟨?_, ?_, ?_, ?_, ?_, ?_, ?_, rfl, ?_, ?_, ?_, ?_, ?_⟩
  · simp [findCircularDependencies, dfsFuel, univList, setAdd, dfsVisit,
      depsOf, alookup, indexOfStr, deduplicateCycles, dedupStep,
      hab, hbc, hac, hba, hcb, hca]
  · simp [findCircularDependencies, dfsFuel, univList, setAdd, dfsVisit,
      depsOf, alookup, indexOfStr, deduplicateCycles, dedupStep,
      hab, hbc, hac, hba, hcb, hca]
  · simp [findCircularDependencies, dfsFuel, univList, setAdd, dfsVisit,
      depsOf, alookup, indexOfStr, deduplicateCycles, dedupStep,
      hab, hbc, hac, hba, hcb, hca]
  · ext x
    simp only [List.mem_toFinset, List.mem_cons, List.not_mem_nil,
      Finset.mem_insert, Finset.mem_singleton, or_false]
    tauto
  · ext x
    simp only [List.mem_toFinset, List.mem_cons, List.not_mem_nil,
      Finset.mem_insert, Finset.mem_singleton, or_false]
    tauto
  · ext x
    simp only [List.mem_toFinset, List.mem_cons, List.not_mem_nil,
      Finset.mem_insert, Finset.mem_singleton, or_false]
    tauto
  · simp [findAllCyclesWithTarjan, tarjanFuel, univList, setAdd,
      strongConnect, depsOf, alookup, popScc, List.erase_cons,
      hab, hbc, hac, hba, hcb, hca]
  · ext x
    simp only [List.mem_toFinset, List.mem_cons, List.not_mem_nil,
      Finset.mem_insert, Finset.mem_singleton, or_false]
    tauto
  · simp [findCircularDependencies, dfsFuel, univList, setAdd, dfsVisit,
      depsOf, alookup, indexOfStr, deduplicateCycles, dedupStep,
      hab, hbc, hac, hba, hcb, hca]
  · simp [findCircularDependencies, dfsFuel, univList, setAdd, dfsVisit,
      depsOf, alookup, indexOfStr, deduplicateCycles, dedupStep,
      hab, hbc, hac, hba, hcb, hca]
  · simp [findCircularDependencies, dfsFuel, univList, setAdd, dfsVisit,
      depsOf, alookup, indexOfStr, deduplicateCycles, dedupStep,
      hab, hbc, hac, hba, hcb, hca]
  · simp [findAllCyclesWithTarjan, tarjanFuel, univList, setAdd,
      strongConnect, depsOf, alookup, popScc, List.erase_cons,
      hab, hbc, hac, hba, hcb, hca]

/-- Witness for C6 at three concrete distinct file names. -/
theorem three_cycle_and_chain_witness :
    findCircularDependencies [("A", ["B"]), ("B", ["C"]), ("C", ["A"])] "A"
        = [["A", "B", "C", "A"]]
    ∧ findCircularDependencies [("A", ["B"]), ("B", ["C"]), ("C", ["A"])] "B"
        = [["B", "C", "A", "B"]]
    ∧ findCircularDependencies [("A", ["B"]), ("B", ["C"]), ("C", ["A"])] "C"
        = [["C", "A", "B", "C"]]
    ∧ ["A", "B", "C", "A"].toFinset = {"A", "B", "C"}
    ∧ ["B", "C", "A", "B"].toFinset = {"A", "B", "C"}
    ∧ ["C", "A", "B", "C"].toFinset = {"A", "B", "C"}
    ∧ findAllCyclesWithTarjan [("A", ["B"]), ("B", ["C"]), ("C", ["A"])]
        = [["C", "B", "A"]]
    ∧ (["C", "B", "A"] : List String).length = 3
    ∧ ["C", "B", "A"].toFinset = {"A", "B", "C"}
    ∧ findCircularDependencies [("A", ["B"]), ("B", ["C"]), ("C", [])] "A" = []
    ∧ findCircularDependencies [("A", ["B"]), ("B", ["C"]), ("C", [])] "B" = []
    ∧ findCircularDependencies [("A", ["B"]), ("B", ["C"]), ("C", [])] "C" = []
    ∧ findAllCyclesWithTarjan [("A", ["B"]), ("B", ["C"]), ("C", [])] = [] :=
  three_cycle_and_chain "A" "B" "C" (by decide) (by decide) (by decide)

/-- Witness for C10 (amended) on an index with a self-importing file. -/
theorem self_loop_asymmetry_witness :
    (∃ c ∈ findCircularDependencies [("A", ["A", "B"]), ("B", ["A"])] "A",
        cycleKey c = cycleKey ["A", "A"])
    ∧ (∀ info ∈ getAllCircularDependencies
          ⟨[("A", ["A", "B"]), ("B", ["A"])],
           [("A", ["A", "B"]), ("B", ["A"])]⟩, 1 < info.files.length)
    ∧ getAllCircularDependencies ⟨[("A", ["A"])], [("A", ["A"])]⟩ = [] :=
  self_loop_asymmetry
    ⟨[("A", ["A", "B"]), ("B", ["A"])], [("A", ["A", "B"]), ("B", ["A"])]⟩
    "A" (by decide)

end FileDeps
